import Mathlib

/-!
Shallow embedding of delta_zk.rs: an R1CS-style constraint builder and
witness verifier over the fixed prime P = 0xffff_ffff_0000_0001, plus a toy
Poseidon-like permutation round.  Machine integers (Rust u128) are modelled
as Nat with explicit reduction mod 2^128 exactly where the Rust code wraps.
-/

namespace DeltaZk

/-- The fixed prime modulus, 0xffff_ffff_0000_0001 (decimal). -/
def P : Nat := 18446744069414584321

/-- 2^128, the wrap-around modulus of the Rust u128 type (decimal). -/
def U128 : Nat := 340282366920938463463374607431768211456

/-- Field addition as the source writes it: overflowing_add gives the wrapped
sum s and the carry flag o, and the code then computes (s + o * 0) % P, i.e.
the carry is multiplied by zero before reduction. -/
def add (a b : Nat) : Nat :=
  ((a + b) % U128 + (if a + b < U128 then 0 else 1) * 0) % P

/-- Field subtraction: (a + P - (b % P)) % P on u128, with u128 wrapping made
explicit (the inner sum and difference wrap mod 2^128). -/
def sub (a b : Nat) : Nat :=
  (((a + P) % U128 + U128 - b % P) % U128) % P

/-- Field multiplication: wrapping_mul on u128 followed by % P. -/
def mul (a b : Nat) : Nat :=
  (a * b) % U128 % P

/-- The loop of exp: while e > 0, multiply r by x when the low bit of e is
set, square x, shift e right. -/
def expAux (x e r : Nat) : Nat :=
  if h : e = 0 then r
  else expAux (mul x x) (e / 2) (if e % 2 = 1 then mul r x else r)
termination_by e
decreasing_by
  exact Nat.div_lt_self (Nat.pos_of_ne_zero h) (by decide)

/-- Modular exponentiation by repeated squaring, r initialised to 1. -/
def exp (x e : Nat) : Nat := expAux x e 1

/-- A sparse linear combination: (variable index, coefficient) pairs in
insertion order, plus a constant term. -/
structure LinComb where
  terms : List (Nat × Nat)
  const_term : Nat
deriving Repr, DecidableEq

/-- LinComb::new(): empty terms, zero constant. -/
def LinComb.new : LinComb := ⟨[], 0⟩

/-- LinComb::c(k): add k into the constant term (field addition). -/
def LinComb.c (lc : LinComb) (k : Nat) : LinComb :=
  { lc with const_term := add lc.const_term k }

/-- LinComb::t(var, coeff): push one (var, coeff) pair onto the term list. -/
def LinComb.t (lc : LinComb) (v coeff : Nat) : LinComb :=
  { lc with terms := lc.terms ++ [(v, coeff)] }

/-- A witness: a map from variable index to value, modelled as a function to
Option (the Rust HashMap has unique keys, so a function is faithful). -/
structure Witness where
  values : Nat → Option Nat

/-- w.values.get(v).unwrap_or(&0): lookup with default 0 on a missing key. -/
def witnessGet (w : Witness) (v : Nat) : Nat :=
  (w.values v).getD 0

/-- LinComb::eval: fold over the terms starting from the constant term,
adding coeff * witness-value (field ops) at each step. -/
def LinComb.eval (lc : LinComb) (w : Witness) : Nat :=
  lc.terms.foldl (fun acc t => add acc (mul t.2 (witnessGet w t.1))) lc.const_term

/-- One R1CS-style constraint (A, B, C), asserting A*B - C = 0 mod P. -/
structure Constraint where
  a : LinComb
  b : LinComb
  c : LinComb
deriving Repr, DecidableEq

/-- The builder: ordered constraint list plus the next free variable index. -/
structure Builder where
  constraints : List Constraint
  next_var : Nat

/-- Builder::new(): empty constraints, counter 0. -/
def Builder.new : Builder := ⟨[], 0⟩

/-- Builder::alloc(val): return the current counter and bump it; the value
argument is dropped (only the Witness carries values). -/
def Builder.alloc (b : Builder) (val : Nat) : Nat × Builder :=
  (b.next_var, { b with next_var := b.next_var + 1 })

/-- Builder::constrain(a, b, c): push a constraint onto the list. -/
def Builder.constrain (b : Builder) (la lb lc : LinComb) : Builder :=
  { b with constraints := b.constraints ++ [⟨la, lb, lc⟩] }

/-- Builder::mul_gate(x, y, z): A = [(x,1)], B = [(y,1)], C = [(z,1)]. -/
def Builder.mul_gate (b : Builder) (x y z : Nat) : Builder :=
  b.constrain (LinComb.new.t x 1) (LinComb.new.t y 1) (LinComb.new.t z 1)

/-- Builder::add_gate(x, y, z): A = [(x,1),(y,1)], B = constant 1,
C = [(z,1)]. -/
def Builder.add_gate (b : Builder) (x y z : Nat) : Builder :=
  b.constrain ((LinComb.new.t x 1).t y 1) (LinComb.new.c 1) (LinComb.new.t z 1)

/-- The per-constraint check inside verify: sub(mul(a, b), c) % P == 0. -/
def Constraint.holds (con : Constraint) (w : Witness) : Bool :=
  sub (mul (con.a.eval w) (con.b.eval w)) (con.c.eval w) % P == 0

/-- verify(builder, wit): all constraints pass their check. -/
def verify (b : Builder) (w : Witness) : Bool :=
  b.constraints.all (fun con => con.holds w)

/-- The toy Poseidon-like round: x^5 S-box on each of the 3 state elements,
then the fixed 3x3 matrix [[2,1,1],[1,2,1],[1,1,2]] applied with field ops. -/
def poseidon_round (s : Nat × Nat × Nat) : Nat × Nat × Nat :=
  let x0 := exp s.1 5
  let x1 := exp s.2.1 5
  let x2 := exp s.2.2 5
  ( add (add (mul 2 x0) (mul 1 x1)) (mul 1 x2),
    add (add (mul 1 x0) (mul 2 x1)) (mul 1 x2),
    add (add (mul 1 x0) (mul 1 x1)) (mul 2 x2) )

/-! Basic arithmetic facts about the embedded field operations. -/

lemma P_pos : 0 < P := by unfold P; omega

lemma P_lt_U128 : P < U128 := by unfold P U128; omega

lemma P_sq_le_U128 : P * P ≤ U128 := by unfold P U128; omega

/-- The result of add is always a canonical representative. -/
lemma add_lt_P (a b : Nat) : add a b < P :=
  Nat.mod_lt _ P_pos

/-- The result of sub is always a canonical representative. -/
lemma sub_lt_P (a b : Nat) : sub a b < P :=
  Nat.mod_lt _ P_pos

/-- The result of mul is always a canonical representative. -/
lemma mul_lt_P (a b : Nat) : mul a b < P :=
  Nat.mod_lt _ P_pos

/-- When the true sum fits in a u128 no wrapping occurs and add reduces the
exact sum. -/
lemma add_eq_of_lt (a b : Nat) (h : a + b < U128) : add a b = (a + b) % P := by
  unfold add
  rw [if_pos h, Nat.mod_eq_of_lt h]
  norm_num

/-- When the true product fits in a u128 no wrapping occurs and mul reduces
the exact product. -/
lemma mul_eq_of_lt (a b : Nat) (h : a * b < U128) : mul a b = a * b % P := by
  unfold mul
  rw [Nat.mod_eq_of_lt h]

/-- For canonical inputs, mul is the exact product mod P. -/
lemma mul_eq (a b : Nat) (ha : a < P) (hb : b < P) : mul a b = a * b % P := by
  apply mul_eq_of_lt
  have hab : a * b < P * P := mul_lt_mul'' ha hb (Nat.zero_le _) (Nat.zero_le _)
  exact Nat.lt_of_lt_of_le hab P_sq_le_U128

/-- For a canonical first argument, sub is (a + P - b % P) % P with no
wrapping. -/
lemma sub_eq (a b : Nat) (ha : a < P) : sub a b = (a + P - b % P) % P := by
  unfold sub
  have hP : P + P < U128 := by unfold P U128; omega
  have h1 : a + P < U128 := by omega
  have hbP : b % P < P := Nat.mod_lt _ P_pos
  rw [Nat.mod_eq_of_lt h1]
  have h2 : a + P + U128 - b % P = (a + P - b % P) + U128 := by omega
  rw [h2, Nat.add_mod_right, Nat.mod_eq_of_lt (show a + P - b % P < U128 by omega)]

/-- sub lands on 0 exactly when the first (canonical) argument equals the
reduction of the second. -/
lemma sub_eq_zero_iff (a b : Nat) (ha : a < P) : sub a b = 0 ↔ a = b % P := by
  rw [sub_eq a b ha]
  have hb : b % P < P := Nat.mod_lt _ P_pos
  unfold P at *
  omega

/-- A witness is well formed when every value it can yield is a canonical
field element (missing keys yield 0, which is canonical). -/
def Witness.WF (w : Witness) : Prop := ∀ v, witnessGet w v < P

/-- The evaluation fold stays below P from any canonical accumulator. -/
lemma foldl_add_lt (l : List (Nat × Nat)) (w : Witness) (acc : Nat) (h : acc < P) :
    l.foldl (fun acc t => add acc (mul t.2 (witnessGet w t.1))) acc < P := by
  induction l generalizing acc with
  | nil => exact h
  | cons hd tl ih => exact ih _ (add_lt_P _ _)

/-- Evaluation of a LinComb with canonical constant is canonical. -/
lemma eval_lt_P (lc : LinComb) (w : Witness) (hc : lc.const_term < P) :
    lc.eval w < P :=
  foldl_add_lt lc.terms w lc.const_term hc

/-- The evaluation fold computes the exact weighted sum reduced mod P, when
the accumulator, the coefficients and the witness values are canonical. -/
lemma foldl_add_eq (l : List (Nat × Nat)) (w : Witness) (acc : Nat)
    (hacc : acc < P) (hco : ∀ t ∈ l, t.2 < P) (hw : Witness.WF w) :
    l.foldl (fun acc t => add acc (mul t.2 (witnessGet w t.1))) acc
      = (acc + (l.map (fun t => t.2 * witnessGet w t.1)).sum) % P := by
  induction l generalizing acc with
  | nil => simpa using (Nat.mod_eq_of_lt hacc).symm
  | cons hd tl ih =>
    simp only [List.foldl_cons, List.map_cons, List.sum_cons]
    have hhd : hd.2 < P := hco hd (by simp)
    have hwv : witnessGet w hd.1 < P := hw hd.1
    rw [ih _ (add_lt_P _ _) (fun t ht => hco t (by simp [ht]))]
    have hmul : mul hd.2 (witnessGet w hd.1) = hd.2 * witnessGet w hd.1 % P :=
      mul_eq _ _ hhd hwv
    have hfit : acc + hd.2 * witnessGet w hd.1 % P < U128 := by
      have h1 : hd.2 * witnessGet w hd.1 % P < P := Nat.mod_lt _ P_pos
      have h2 : P + P < U128 := by unfold P U128; omega
      omega
    rw [hmul, add_eq_of_lt _ _ hfit]
    generalize hd.2 * witnessGet w hd.1 = m
    generalize (tl.map (fun t => t.2 * witnessGet w t.1)).sum = s
    unfold P at *
    omega

/-- LinComb evaluation equals constant plus weighted sum, reduced mod P. -/
lemma eval_eq_sum (lc : LinComb) (w : Witness) (hc : lc.const_term < P)
    (hco : ∀ t ∈ lc.terms, t.2 < P) (hw : Witness.WF w) :
    lc.eval w
      = (lc.const_term + (lc.terms.map (fun t => t.2 * witnessGet w t.1)).sum) % P :=
  foldl_add_eq lc.terms w lc.const_term hc hco hw

/-- Evaluation only sees the witness through witnessGet. -/
lemma eval_congr (lc : LinComb) (w w' : Witness)
    (h : ∀ v, witnessGet w v = witnessGet w' v) : lc.eval w = lc.eval w' := by
  unfold LinComb.eval
  simp only [h]

/-- The per-constraint check, restated over the integers: it passes exactly
when evalA * evalB - evalC vanishes mod P, provided evalA and evalB are
canonical. -/
lemma holds_iff_int (con : Constraint) (w : Witness)
    (ha : con.a.eval w < P) (hb : con.b.eval w < P) :
    (con.holds w = true) ↔
      ((con.a.eval w : Int) * con.b.eval w - con.c.eval w) % (P : Int) = 0 := by
  unfold Constraint.holds
  rw [beq_iff_eq, Nat.mod_eq_of_lt (sub_lt_P _ _), mul_eq _ _ ha hb,
    sub_eq_zero_iff _ _ (Nat.mod_lt _ P_pos)]
  have hcast : ((con.a.eval w : Int) * con.b.eval w - con.c.eval w)
      = ((con.a.eval w * con.b.eval w : Nat) : Int) - (con.c.eval w : Nat) := by
    push_cast
    ring
  rw [hcast]
  generalize con.a.eval w * con.b.eval w = m
  generalize con.c.eval w = z
  unfold P
  omega

lemma one_lt_P : 1 < P := by unfold P; omega

/-- The exp loop keeps its accumulator canonical. -/
lemma expAux_lt_P (e : Nat) : ∀ x r : Nat, r < P → expAux x e r < P := by
  induction e using Nat.strong_induction_on with
  | _ e ih =>
    intro x r hr
    unfold expAux
    split
    · exact hr
    · rename_i he
      have h2 : e / 2 < e := Nat.div_lt_self (Nat.pos_of_ne_zero he) (by decide)
      apply ih _ h2
      split
      · exact mul_lt_P _ _
      · exact hr

/-- The exp loop computes r * x^e mod P for canonical x and r. -/
lemma expAux_eq_pow (e : Nat) : ∀ x r : Nat, x < P → r < P →
    expAux x e r = r * x ^ e % P := by
  induction e using Nat.strong_induction_on with
  | _ e ih =>
    intro x r hx hr
    unfold expAux
    split
    · rename_i he
      subst he
      simp [Nat.mod_eq_of_lt hr]
    · rename_i he
      have h2 : e / 2 < e := Nat.div_lt_self (Nat.pos_of_ne_zero he) (by decide)
      have hr2 : (if e % 2 = 1 then mul r x else r) < P := by
        split
        · exact mul_lt_P _ _
        · exact hr
      rw [ih (e / 2) h2 (mul x x) _ (mul_lt_P x x) hr2]
      rw [mul_eq x x hx hx]
      have he2 : e = 2 * (e / 2) + e % 2 := by omega
      rcases Nat.mod_two_eq_zero_or_one e with hb | hb
      · rw [if_neg (by omega)]
        have h4 : r * (x * x % P) ^ (e / 2) ≡ r * (x * x) ^ (e / 2) [MOD P] :=
          (Nat.ModEq.refl r).mul ((Nat.mod_modEq (x * x) P).pow (e / 2))
        have h5 : r * (x * x) ^ (e / 2) = r * x ^ e := by
          conv_rhs => rw [he2, hb]
          ring
        exact h4.trans (h5 ▸ Nat.ModEq.refl _)
      · rw [if_pos hb, mul_eq r x hr hx]
        have h4 : (r * x % P) * (x * x % P) ^ (e / 2)
            ≡ (r * x) * (x * x) ^ (e / 2) [MOD P] :=
          (Nat.mod_modEq (r * x) P).mul ((Nat.mod_modEq (x * x) P).pow (e / 2))
        have h5 : (r * x) * (x * x) ^ (e / 2) = r * x ^ e := by
          conv_rhs => rw [he2, hb]
          ring
        exact h4.trans (h5 ▸ Nat.ModEq.refl _)

/-- exp computes x^e mod P for canonical x. -/
lemma exp_eq_pow (x e : Nat) (hx : x < P) : exp x e = x ^ e % P := by
  unfold exp
  rw [expAux_eq_pow e x 1 hx one_lt_P, one_mul]

/-- exp always returns a canonical representative. -/
lemma exp_lt_P (x e : Nat) : exp x e < P :=
  expAux_lt_P e x 1 one_lt_P

/-- exp with exponent 0 returns 1 for every base. -/
lemma exp_zero_eq_one (x : Nat) : exp x 0 = 1 := by
  unfold exp expAux
  simp

/-- The n-fold repeated mul product of a, as the spec words it: zero factors
give 1, and each further factor multiplies by a on the right with mul. -/
def mulPow (a : Nat) : Nat → Nat
  | 0 => 1
  | n + 1 => mul (mulPow a n) a

lemma mulPow_eq_pow (a : Nat) (ha : a < P) : ∀ n, mulPow a n = a ^ n % P := by
  intro n
  induction n with
  | zero => simp [mulPow, Nat.mod_eq_of_lt one_lt_P]
  | succ n ih =>
    rw [mulPow, ih, mul_eq _ _ (Nat.mod_lt _ P_pos) ha]
    have h1 : (a ^ n % P) * a ≡ a ^ n * a [MOD P] :=
      (Nat.mod_modEq _ _).mul (Nat.ModEq.refl a)
    have h2 : a ^ n * a = a ^ (n + 1) := (pow_succ a n).symm
    exact h1.trans (h2 ▸ Nat.ModEq.refl _)

/-- Extend a witness with variable v mapped to value x. -/
def Witness.insert (w : Witness) (v x : Nat) : Witness :=
  ⟨fun u => if u = v then some x else w.values u⟩

/-- Evaluating against a witness missing v is evaluating against the same
witness with v bound to 0. -/
lemma eval_insert_zero (lc : LinComb) (w : Witness) (v : Nat)
    (hv : w.values v = none) : lc.eval w = lc.eval (w.insert v 0) := by
  apply eval_congr
  intro u
  unfold witnessGet Witness.insert
  by_cases h : u = v
  · subst h
    rw [hv]
    simp
  · simp [h]

lemma two_P_lt_U128 : P + P < U128 := by unfold P U128; omega

/-- One row of the toy MDS mix: field ops on canonical x^5 values compute
the exact row sum reduced mod P. -/
lemma mix_row (k0 k1 k2 A B C : Nat) (hk0 : k0 < P) (hk1 : k1 < P) (hk2 : k2 < P) :
    add (add (mul k0 (A % P)) (mul k1 (B % P))) (mul k2 (C % P))
      = (k0 * A + k1 * B + k2 * C) % P := by
  have hA : A % P < P := Nat.mod_lt _ P_pos
  have hB : B % P < P := Nat.mod_lt _ P_pos
  have hC : C % P < P := Nat.mod_lt _ P_pos
  have m0 : mul k0 (A % P) ≡ k0 * A [MOD P] := by
    rw [mul_eq _ _ hk0 hA]
    exact (Nat.mod_modEq _ _).trans ((Nat.ModEq.refl k0).mul (Nat.mod_modEq A P))
  have m1 : mul k1 (B % P) ≡ k1 * B [MOD P] := by
    rw [mul_eq _ _ hk1 hB]
    exact (Nat.mod_modEq _ _).trans ((Nat.ModEq.refl k1).mul (Nat.mod_modEq B P))
  have m2 : mul k2 (C % P) ≡ k2 * C [MOD P] := by
    rw [mul_eq _ _ hk2 hC]
    exact (Nat.mod_modEq _ _).trans ((Nat.ModEq.refl k2).mul (Nat.mod_modEq C P))
  have hadd1 : add (mul k0 (A % P)) (mul k1 (B % P)) ≡ k0 * A + k1 * B [MOD P] := by
    rw [add_eq_of_lt _ _ (by
      have := mul_lt_P k0 (A % P)
      have := mul_lt_P k1 (B % P)
      have := two_P_lt_U128
      omega)]
    exact (Nat.mod_modEq _ _).trans (m0.add m1)
  have hfin : add (add (mul k0 (A % P)) (mul k1 (B % P))) (mul k2 (C % P))
      ≡ k0 * A + k1 * B + k2 * C [MOD P] := by
    rw [add_eq_of_lt _ _ (by
      have := add_lt_P (mul k0 (A % P)) (mul k1 (B % P))
      have := mul_lt_P k2 (C % P)
      have := two_P_lt_U128
      omega)]
    exact (Nat.mod_modEq _ _).trans (hadd1.add m2)
  have hlt : add (add (mul k0 (A % P)) (mul k1 (B % P))) (mul k2 (C % P)) < P :=
    add_lt_P _ _
  rw [← Nat.mod_eq_of_lt hlt]
  exact hfin

/-- Claim C5: for canonical field elements a and b, add, sub, mul, and exp
at any exponent return canonical field elements below P; all are total. -/
theorem C5_field_closure (a b : Nat) (ha : a < P) (hb : b < P) :
    add a b < P ∧ sub a b < P ∧ mul a b < P ∧ ∀ n : Nat, exp a n < P :=
  ⟨add_lt_P a b, sub_lt_P a b, mul_lt_P a b, fun n => exp_lt_P a n⟩

theorem C5_field_closure_witness :
    2 < P ∧ 3 < P
      ∧ (add 2 3 < P ∧ sub 2 3 < P ∧ mul 2 3 < P ∧ ∀ n : Nat, exp 2 n < P) :=
  ⟨by decide, by decide, C5_field_closure 2 3 (by decide) (by decide)⟩

/-- Claim C6 is violated by the code: the carry of overflowing_add is
multiplied by zero, so a sum that wraps past 2^128 is silently truncated.
At a = 2^128 - 1 and b = 1 the code returns 0, while (a + b) mod P is the
nonzero value 2^128 mod P = 18446744065119617025. -/
theorem C6_add_overflow_bug :
    add (U128 - 1) 1 = 0 ∧ (U128 - 1 + 1) % P = 18446744065119617025 := by
  constructor
  · unfold add U128 P
    norm_num
  · unfold U128 P
    norm_num

/-- Claim C7: exp with exponent 0 is 1 for every base, and for a canonical
base, exp a n equals the n-fold repeated mul product of a. -/
theorem C7_exp_repeated_mul (a : Nat) (ha : a < P) :
    (∀ x : Nat, exp x 0 = 1) ∧ ∀ n : Nat, exp a n = mulPow a n := by
  refine ⟨exp_zero_eq_one, fun n => ?_⟩
  rw [exp_eq_pow a n ha, mulPow_eq_pow a ha n]

theorem C7_exp_repeated_mul_witness :
    3 < P ∧ ((∀ x : Nat, exp x 0 = 1) ∧ ∀ n : Nat, exp 3 n = mulPow 3 n) :=
  ⟨by decide, C7_exp_repeated_mul 3 (by decide)⟩

/-- Claim C8: one toy permutation round maps a canonical 3-element state to
the fixed matrix [[2,1,1],[1,2,1],[1,1,2]] applied to the pointwise fifth
powers, all mod P, and the round is a pure deterministic function. -/
theorem C8_poseidon_round (s0 s1 s2 : Nat) (h0 : s0 < P) (h1 : s1 < P) (h2 : s2 < P) :
    poseidon_round (s0, s1, s2) =
      ((2 * s0 ^ 5 + 1 * s1 ^ 5 + 1 * s2 ^ 5) % P,
       (1 * s0 ^ 5 + 2 * s1 ^ 5 + 1 * s2 ^ 5) % P,
       (1 * s0 ^ 5 + 1 * s1 ^ 5 + 2 * s2 ^ 5) % P)
    ∧ ∀ t : Nat × Nat × Nat, t = (s0, s1, s2) →
        poseidon_round t = poseidon_round (s0, s1, s2) := by
  constructor
  · unfold poseidon_round
    dsimp only
    rw [exp_eq_pow s0 5 h0, exp_eq_pow s1 5 h1, exp_eq_pow s2 5 h2]
    rw [mix_row 2 1 1 _ _ _ (by unfold P; omega) one_lt_P one_lt_P,
      mix_row 1 2 1 _ _ _ one_lt_P (by unfold P; omega) one_lt_P,
      mix_row 1 1 2 _ _ _ one_lt_P one_lt_P (by unfold P; omega)]
  · intro t ht
    rw [ht]

theorem C8_poseidon_round_witness :
    1 < P ∧ 2 < P ∧ 3 < P
      ∧ (poseidon_round (1, 2, 3) =
          ((2 * 1 ^ 5 + 1 * 2 ^ 5 + 1 * 3 ^ 5) % P,
           (1 * 1 ^ 5 + 2 * 2 ^ 5 + 1 * 3 ^ 5) % P,
           (1 * 1 ^ 5 + 1 * 2 ^ 5 + 2 * 3 ^ 5) % P)
        ∧ ∀ t : Nat × Nat × Nat, t = (1, 2, 3) →
            poseidon_round t = poseidon_round (1, 2, 3)) :=
  ⟨by decide, by decide, by decide,
    C8_poseidon_round 1 2 3 (by decide) (by decide) (by decide)⟩

/-- Claim C9: alloc returns the current counter, bumps it by one, leaves the
constraint list untouched, and ignores the supplied initial value; counters
start at 0 and successive allocations return successive indices. -/
theorem C9_alloc_frame (b : Builder) (v v' : Nat) :
    (b.alloc v).1 = b.next_var
    ∧ (b.alloc v).2.next_var = b.next_var + 1
    ∧ (b.alloc v).2.constraints = b.constraints
    ∧ b.alloc v = b.alloc v'
    ∧ ((b.alloc v).2.alloc v').1 = (b.alloc v).1 + 1
    ∧ Builder.new.next_var = 0 :=
  ⟨rfl, rfl, rfl, rfl, rfl, rfl⟩

/-- Claim C10: a builder with an empty constraint list is satisfied by every
witness; in particular a fresh builder verifies against anything. -/
theorem C10_empty_builder_verifies (w : Witness) (n : Nat) :
    verify ⟨[], n⟩ w = true ∧ verify Builder.new w = true :=
  ⟨rfl, rfl⟩

/-- A builder is well formed when each constraint's A and B linear
combinations carry a canonical constant term. Every LinComb produced by the
public constructors (new, c, t) has this property, since c normalizes with
field addition. -/
def Builder.WF (b : Builder) : Prop :=
  ∀ con ∈ b.constraints, con.a.const_term < P ∧ con.b.const_term < P

/-- Int restatement of a mod-P coincidence of two Nat values. -/
lemma int_sub_mod_iff (m z : Nat) :
    ((m : Int) - (z : Int)) % (P : Int) = 0 ↔ m % P = z % P := by
  unfold P
  omega

/-- Claim C1: verify is the conjunction, over the builder's constraints, of
the checks evalA * evalB - evalC = 0 mod P; it is invariant under
permutation of the constraint list, and prepending a single falsified
constraint to a satisfied builder makes it return false. -/
theorem C1_verify_conjunction (b : Builder) (w : Witness) (hb : b.WF) :
    (verify b w = true ↔ ∀ con ∈ b.constraints,
        ((con.a.eval w : Int) * con.b.eval w - con.c.eval w) % (P : Int) = 0)
    ∧ (∀ l' : List Constraint, b.constraints.Perm l' →
        verify b w = verify ⟨l', b.next_var⟩ w)
    ∧ (∀ con : Constraint, con.a.const_term < P → con.b.const_term < P →
        ((con.a.eval w : Int) * con.b.eval w - con.c.eval w) % (P : Int) ≠ 0 →
        verify b w = true →
        verify ⟨con :: b.constraints, b.next_var⟩ w = false) := by
  refine ⟨?_, ?_, ?_⟩
  · unfold verify
    rw [List.all_eq_true]
    constructor
    · intro h con hc
      exact (holds_iff_int con w (eval_lt_P _ _ (hb con hc).1)
        (eval_lt_P _ _ (hb con hc).2)).mp (h con hc)
    · intro h con hc
      exact (holds_iff_int con w (eval_lt_P _ _ (hb con hc).1)
        (eval_lt_P _ _ (hb con hc).2)).mpr (h con hc)
  · intro l' hp
    unfold verify
    have key : (b.constraints.all fun con => con.holds w) = true
        ↔ (l'.all fun con => con.holds w) = true := by
      rw [List.all_eq_true, List.all_eq_true]
      exact ⟨fun h x hx => h x (hp.mem_iff.mpr hx),
        fun h x hx => h x (hp.mem_iff.mp hx)⟩
    cases h1 : (b.constraints.all fun con => con.holds w) <;>
      cases h2 : (l'.all fun con => con.holds w) <;> simp_all
  · intro con ha hbc hfail hver
    unfold verify
    rw [List.all_cons]
    have hfalse : con.holds w = false := by
      rcases Bool.eq_false_or_eq_true (con.holds w) with h | h
      · exact absurd ((holds_iff_int con w (eval_lt_P _ _ ha)
          (eval_lt_P _ _ hbc)).mp h) hfail
      · exact h
    rw [hfalse]
    rfl

/-- The builder of the repository's end-to-end multiplication test: allocate
x, y, z and constrain x * y = z. -/
def mulDemoBuilder : Builder :=
  let s0 := Builder.new
  let a1 := s0.alloc 3
  let a2 := a1.2.alloc 5
  let a3 := a2.2.alloc 15
  a3.2.mul_gate a1.1 a2.1 a3.1

/-- The witness of the end-to-end multiplication test: x = 3, y = 5, z = 15. -/
def mulDemoWitness : Witness :=
  ⟨fun v => if v = 0 then some 3 else if v = 1 then some 5
    else if v = 2 then some 15 else none⟩

theorem C1_verify_conjunction_witness :
    mulDemoBuilder.WF
    ∧ ((verify mulDemoBuilder mulDemoWitness = true
          ↔ ∀ con ∈ mulDemoBuilder.constraints,
            ((con.a.eval mulDemoWitness : Int) * con.b.eval mulDemoWitness
              - con.c.eval mulDemoWitness) % (P : Int) = 0)
      ∧ (∀ l' : List Constraint, mulDemoBuilder.constraints.Perm l' →
          verify mulDemoBuilder mulDemoWitness
            = verify ⟨l', mulDemoBuilder.next_var⟩ mulDemoWitness)
      ∧ (∀ con : Constraint, con.a.const_term < P → con.b.const_term < P →
          ((con.a.eval mulDemoWitness : Int) * con.b.eval mulDemoWitness
            - con.c.eval mulDemoWitness) % (P : Int) ≠ 0 →
          verify mulDemoBuilder mulDemoWitness = true →
          verify ⟨con :: mulDemoBuilder.constraints, mulDemoBuilder.next_var⟩
            mulDemoWitness = false)) :=
  ⟨by unfold Builder.WF; decide,
    C1_verify_conjunction mulDemoBuilder mulDemoWitness (by unfold Builder.WF; decide)⟩

/-- Claim C2: LinComb evaluation is the constant plus the weighted sum of
witness values, reduced mod P (duplicate indices accumulate through the
sum), and a variable missing from the witness behaves exactly as if it were
present with value 0. -/
theorem C2_eval_lincomb (lc : LinComb) (w : Witness) (hc : lc.const_term < P)
    (hco : ∀ t ∈ lc.terms, t.2 < P) (hw : Witness.WF w) :
    lc.eval w
      = (lc.const_term + (lc.terms.map (fun t => t.2 * witnessGet w t.1)).sum) % P
    ∧ ∀ v, w.values v = none → lc.eval w = lc.eval (w.insert v 0) :=
  ⟨eval_eq_sum lc w hc hco hw, fun v hv => eval_insert_zero lc w v hv⟩

/-- A LinComb with a duplicated variable index and a missing variable (5 is
not bound by the demo witness). -/
def dupLinComb : LinComb := ⟨[(0, 2), (0, 3), (5, 4)], 7⟩

lemma mulDemoWitness_WF : Witness.WF mulDemoWitness := by
  intro v
  unfold witnessGet mulDemoWitness
  dsimp only
  by_cases h0 : v = 0
  · rw [if_pos h0]
    decide
  · rw [if_neg h0]
    by_cases h1 : v = 1
    · rw [if_pos h1]
      decide
    · rw [if_neg h1]
      by_cases h2 : v = 2
      · rw [if_pos h2]
        decide
      · rw [if_neg h2]
        exact P_pos

theorem C2_eval_lincomb_witness :
    dupLinComb.const_term < P ∧ (∀ t ∈ dupLinComb.terms, t.2 < P)
    ∧ Witness.WF mulDemoWitness
    ∧ (dupLinComb.eval mulDemoWitness
        = (dupLinComb.const_term
            + (dupLinComb.terms.map
                (fun t => t.2 * witnessGet mulDemoWitness t.1)).sum) % P
      ∧ ∀ v, mulDemoWitness.values v = none →
          dupLinComb.eval mulDemoWitness
            = dupLinComb.eval (mulDemoWitness.insert v 0)) :=
  ⟨by decide, by decide, mulDemoWitness_WF,
    C2_eval_lincomb dupLinComb mulDemoWitness (by decide) (by decide)
      mulDemoWitness_WF⟩

/-- Evaluation of a single unit-coefficient term from a canonical witness
value: the value itself. -/
lemma eval_single (v : Nat) (w : Witness) (hv : witnessGet w v < P) :
    (LinComb.new.t v 1).eval w = witnessGet w v := by
  unfold LinComb.eval LinComb.new LinComb.t
  simp only [List.nil_append, List.foldl_cons, List.foldl_nil]
  rw [mul_eq 1 (witnessGet w v) one_lt_P hv, one_mul, Nat.mod_eq_of_lt hv]
  rw [add_eq_of_lt 0 (witnessGet w v) (by have := P_lt_U128; omega)]
  rw [Nat.zero_add, Nat.mod_eq_of_lt hv]

/-- Evaluation of two unit-coefficient terms: the reduced sum of the two
canonical witness values. -/
lemma eval_pair (x y : Nat) (w : Witness)
    (hx : witnessGet w x < P) (hy : witnessGet w y < P) :
    ((LinComb.new.t x 1).t y 1).eval w
      = (witnessGet w x + witnessGet w y) % P := by
  unfold LinComb.eval LinComb.new LinComb.t
  simp only [List.nil_append, List.cons_append, List.foldl_cons, List.foldl_nil]
  rw [mul_eq 1 (witnessGet w x) one_lt_P hx, one_mul, Nat.mod_eq_of_lt hx]
  rw [add_eq_of_lt 0 (witnessGet w x) (by have := P_lt_U128; omega)]
  rw [Nat.zero_add, Nat.mod_eq_of_lt hx]
  rw [mul_eq 1 (witnessGet w y) one_lt_P hy, one_mul, Nat.mod_eq_of_lt hy]
  rw [add_eq_of_lt _ _ (by have := two_P_lt_U128; omega)]

/-- Evaluation of the constant-1 LinComb used by add_gate. -/
lemma eval_const_one (w : Witness) : (LinComb.new.c 1).eval w = 1 := rfl

/-- Claim C3: mul_gate appends exactly the constraint A = [(x,1)],
B = [(y,1)], C = [(z,1)], and that constraint is satisfied by a witness
binding x, y, z to canonical vx, vy, vz iff vx * vy = vz mod P. -/
theorem C3_mul_gate (b : Builder) (x y z : Nat) (w : Witness) (vx vy vz : Nat)
    (hx : w.values x = some vx) (hy : w.values y = some vy)
    (hz : w.values z = some vz)
    (hvx : vx < P) (hvy : vy < P) (hvz : vz < P) :
    (b.mul_gate x y z).constraints
      = b.constraints
          ++ [⟨LinComb.new.t x 1, LinComb.new.t y 1, LinComb.new.t z 1⟩]
    ∧ ((Constraint.holds
          ⟨LinComb.new.t x 1, LinComb.new.t y 1, LinComb.new.t z 1⟩ w = true)
        ↔ vx * vy ≡ vz [MOD P]) := by
  have gx : witnessGet w x = vx := by unfold witnessGet; rw [hx]; rfl
  have gy : witnessGet w y = vy := by unfold witnessGet; rw [hy]; rfl
  have gz : witnessGet w z = vz := by unfold witnessGet; rw [hz]; rfl
  have ea : (LinComb.new.t x 1).eval w = vx := by
    rw [eval_single x w (by rw [gx]; exact hvx), gx]
  have eb : (LinComb.new.t y 1).eval w = vy := by
    rw [eval_single y w (by rw [gy]; exact hvy), gy]
  have ec : (LinComb.new.t z 1).eval w = vz := by
    rw [eval_single z w (by rw [gz]; exact hvz), gz]
  refine ⟨rfl, ?_⟩
  rw [holds_iff_int _ w (by dsimp only; rw [ea]; exact hvx)
    (by dsimp only; rw [eb]; exact hvy)]
  dsimp only
  rw [ea, eb, ec]
  have hcast : ((vx : Int) * vy - vz) = (((vx * vy : Nat) : Int) - (vz : Int)) := by
    push_cast
    ring
  rw [hcast, int_sub_mod_iff]
  exact Iff.rfl

theorem C3_mul_gate_witness :
    mulDemoWitness.values 0 = some 3 ∧ mulDemoWitness.values 1 = some 5
    ∧ mulDemoWitness.values 2 = some 15
    ∧ (3 : Nat) < P ∧ (5 : Nat) < P ∧ (15 : Nat) < P
    ∧ ((Builder.new.mul_gate 0 1 2).constraints
        = Builder.new.constraints
            ++ [⟨LinComb.new.t 0 1, LinComb.new.t 1 1, LinComb.new.t 2 1⟩]
      ∧ ((Constraint.holds
            ⟨LinComb.new.t 0 1, LinComb.new.t 1 1, LinComb.new.t 2 1⟩
            mulDemoWitness = true)
          ↔ (3 : Nat) * 5 ≡ 15 [MOD P])) :=
  ⟨rfl, rfl, rfl, by decide, by decide, by decide,
    C3_mul_gate Builder.new 0 1 2 mulDemoWitness 3 5 15 rfl rfl rfl
      (by decide) (by decide) (by decide)⟩

/-- The builder of the end-to-end addition scenario: allocate x, y, z and
constrain x + y = z. -/
def addDemoBuilder : Builder :=
  let s0 := Builder.new
  let a1 := s0.alloc 3
  let a2 := a1.2.alloc 5
  let a3 := a2.2.alloc 8
  a3.2.add_gate a1.1 a2.1 a3.1

/-- The addition-scenario witness: x = 3, y = 5, z = 8. -/
def addDemoWitness : Witness :=
  ⟨fun v => if v = 0 then some 3 else if v = 1 then some 5
    else if v = 2 then some 8 else none⟩

/-- The addition-scenario witness with y missing (defaults to 0 on read). -/
def addDemoWitnessNoY : Witness :=
  ⟨fun v => if v = 0 then some 3 else if v = 2 then some 8 else none⟩

/-- Claim C4: add_gate appends exactly the constraint A = [(x,1),(y,1)],
B = constant 1, C = [(z,1)]; that constraint is satisfied by a witness
binding x, y, z to canonical vx, vy, vz iff vx + vy = vz mod P; and in the
end-to-end scenario the witness x=3, y=5, z=8 verifies while the witness
with y missing does not. -/
theorem C4_add_gate (b : Builder) (x y z : Nat) (w : Witness) (vx vy vz : Nat)
    (hx : w.values x = some vx) (hy : w.values y = some vy)
    (hz : w.values z = some vz)
    (hvx : vx < P) (hvy : vy < P) (hvz : vz < P) :
    (b.add_gate x y z).constraints
      = b.constraints
          ++ [⟨(LinComb.new.t x 1).t y 1, LinComb.new.c 1, LinComb.new.t z 1⟩]
    ∧ ((Constraint.holds
          ⟨(LinComb.new.t x 1).t y 1, LinComb.new.c 1, LinComb.new.t z 1⟩ w
            = true)
        ↔ vx + vy ≡ vz [MOD P])
    ∧ verify addDemoBuilder addDemoWitness = true
    ∧ verify addDemoBuilder addDemoWitnessNoY = false := by
  have gx : witnessGet w x = vx := by unfold witnessGet; rw [hx]; rfl
  have gy : witnessGet w y = vy := by unfold witnessGet; rw [hy]; rfl
  have gz : witnessGet w z = vz := by unfold witnessGet; rw [hz]; rfl
  have ea : ((LinComb.new.t x 1).t y 1).eval w = (vx + vy) % P := by
    rw [eval_pair x y w (by rw [gx]; exact hvx) (by rw [gy]; exact hvy), gx, gy]
  have ec : (LinComb.new.t z 1).eval w = vz := by
    rw [eval_single z w (by rw [gz]; exact hvz), gz]
  refine ⟨rfl, ?_, by decide, by decide⟩
  rw [holds_iff_int _ w (by dsimp only; rw [ea]; exact Nat.mod_lt _ P_pos)
    (by dsimp only; rw [eval_const_one]; exact one_lt_P)]
  dsimp only
  rw [ea, eval_const_one, ec]
  have hcast : (((vx + vy) % P : Nat) : Int) * (1 : Nat) - (vz : Int)
      = ((((vx + vy) % P : Nat) : Int) - (vz : Int)) := by
    push_cast
    ring
  rw [hcast, int_sub_mod_iff, Nat.mod_mod_of_dvd _ (dvd_refl P)]
  exact Iff.rfl

theorem C4_add_gate_witness :
    addDemoWitness.values 0 = some 3 ∧ addDemoWitness.values 1 = some 5
    ∧ addDemoWitness.values 2 = some 8
    ∧ (3 : Nat) < P ∧ (5 : Nat) < P ∧ (8 : Nat) < P
    ∧ ((Builder.new.add_gate 0 1 2).constraints
        = Builder.new.constraints
            ++ [⟨(LinComb.new.t 0 1).t 1 1, LinComb.new.c 1, LinComb.new.t 2 1⟩]
      ∧ ((Constraint.holds
            ⟨(LinComb.new.t 0 1).t 1 1, LinComb.new.c 1, LinComb.new.t 2 1⟩
              addDemoWitness = true)
          ↔ (3 : Nat) + 5 ≡ 8 [MOD P])
      ∧ verify addDemoBuilder addDemoWitness = true
      ∧ verify addDemoBuilder addDemoWitnessNoY = false) :=
  ⟨rfl, rfl, rfl, by decide, by decide, by decide,
    C4_add_gate Builder.new 0 1 2 addDemoWitness 3 5 8 rfl rfl rfl
      (by decide) (by decide) (by decide)⟩

end DeltaZk
